import Mathlib

/-!
Verification development for the secure-p2p-chat session stack.

Shallow embedding of the Rust sources:
  * `src/core/protocol.rs`  — wire-message codec (`ProtocolMessage`,
    `to_plain_bytes`, `from_plain_bytes`)
  * `src/core/framing.rs`   — length-prefixed framing (`send_packet`, `recv_packet`)
  * `src/network/session.rs`— host handshake and message loop
  * `src/transfer/receiver.rs` — incoming file state machine
  * `src/util.rs`           — `sanitize_filename`

Bytes are modelled as `Nat` (values < 256 on real wires); byte strings as
`List Nat`; Rust `String` as Lean `String` (a list of Unicode scalar values,
exactly Rust's `char` sequence).  UTF-8 encoding/decoding — which
`to_plain_bytes` uses via `format!/into_bytes` and `from_plain_bytes` via
`String::from_utf8_lossy` — is defined from the UTF-8 standard below,
including the maximal-subpart substitution policy that the Rust standard
library implements for lossy decoding.
-/

namespace P2PChat

/-- Unicode replacement character U+FFFD, produced by lossy UTF-8 decoding. -/
def replChar : Char := Char.ofNat 0xFFFD

/-- UTF-8 encoding of one Unicode scalar value (1–4 bytes, standard layout). -/
def utf8EncodeChar (c : Char) : List Nat :=
  let v := c.toNat
  if v < 0x80 then [v]
  else if v < 0x800 then [0xC0 + v / 64, 0x80 + v % 64]
  else if v < 0x10000 then
    [0xE0 + v / 4096, 0x80 + v / 64 % 64, 0x80 + v % 64]
  else
    [0xF0 + v / 262144, 0x80 + v / 4096 % 64, 0x80 + v / 64 % 64, 0x80 + v % 64]

/-- UTF-8 encoding of a character list (Rust `str::as_bytes` / `String::into_bytes`). -/
def utf8EncodeList : List Char → List Nat
  | [] => []
  | c :: cs => utf8EncodeChar c ++ utf8EncodeList cs

/-- UTF-8 encoding of a string. -/
def utf8Encode (s : String) : List Nat := utf8EncodeList s.data

/-- Is `b` a UTF-8 continuation byte (`10xxxxxx`)? -/
def isCont (b : Nat) : Bool := 0x80 ≤ b && b ≤ 0xBF

/-- Allowed second byte ranges per leading byte, following the UTF-8 validity
table (this is what rules out overlong encodings and surrogates). -/
def cont2Ok (b0 b1 : Nat) : Bool :=
  if b0 = 0xE0 then 0xA0 ≤ b1 && b1 ≤ 0xBF
  else if b0 = 0xED then 0x80 ≤ b1 && b1 ≤ 0x9F
  else if b0 = 0xF0 then 0x90 ≤ b1 && b1 ≤ 0xBF
  else if b0 = 0xF4 then 0x80 ≤ b1 && b1 ≤ 0x8F
  else isCont b1

/-- Decode one UTF-8 scalar value from the front of a byte list; `none` on any
ill-formed sequence (strict validation, as in Rust's `str::from_utf8`). -/
def decodeOne : List Nat → Option (Char × List Nat)
  | [] => none
  | b0 :: rest =>
    if b0 < 0x80 then some (Char.ofNat b0, rest)
    else if 0xC2 ≤ b0 && b0 ≤ 0xDF then
      match rest with
      | b1 :: r =>
        if isCont b1 then some (Char.ofNat ((b0 - 0xC0) * 64 + (b1 - 0x80)), r)
        else none
      | [] => none
    else if 0xE0 ≤ b0 && b0 ≤ 0xEF then
      match rest with
      | b1 :: b2 :: r =>
        if cont2Ok b0 b1 && isCont b2 then
          some (Char.ofNat ((b0 - 0xE0) * 4096 + (b1 - 0x80) * 64 + (b2 - 0x80)), r)
        else none
      | _ => none
    else if 0xF0 ≤ b0 && b0 ≤ 0xF4 then
      match rest with
      | b1 :: b2 :: b3 :: r =>
        if cont2Ok b0 b1 && isCont b2 && isCont b3 then
          some (Char.ofNat
            ((b0 - 0xF0) * 262144 + (b1 - 0x80) * 4096 + (b2 - 0x80) * 64 + (b3 - 0x80)), r)
        else none
      | _ => none
    else none

/-- Number of bytes consumed at an ill-formed position: the length of the
maximal valid prefix of a sequence, per the Unicode "substitution of maximal
subparts" policy used by Rust's `String::from_utf8_lossy`. -/
def invalidLen : List Nat → Nat
  | b0 :: b1 :: b2 :: _ =>
    if (0xE0 ≤ b0 && b0 ≤ 0xEF) && cont2Ok b0 b1 then 2
    else if (0xF0 ≤ b0 && b0 ≤ 0xF4) && cont2Ok b0 b1 then
      (if isCont b2 then 3 else 2)
    else 1
  | [b0, b1] =>
    if ((0xE0 ≤ b0 && b0 ≤ 0xEF) || (0xF0 ≤ b0 && b0 ≤ 0xF4)) && cont2Ok b0 b1 then 2
    else 1
  | _ => 1

/-- Fuelled lossy UTF-8 decoder loop (fuel bounds the number of steps; each
step consumes at least one byte, so `l.length` fuel always suffices). -/
def utf8LossyGo : Nat → List Nat → List Char
  | 0, _ => []
  | _ + 1, [] => []
  | fuel + 1, b0 :: rest =>
    match decodeOne (b0 :: rest) with
    | some (c, l') => c :: utf8LossyGo fuel l'
    | none => replChar :: utf8LossyGo fuel ((b0 :: rest).drop (invalidLen (b0 :: rest)))

/-- Lossy UTF-8 decoding (Rust `String::from_utf8_lossy`). -/
def utf8Lossy (l : List Nat) : List Char := utf8LossyGo l.length l

/-- Fuelled strict UTF-8 decoder loop. -/
def utf8StrictGo : Nat → List Nat → Option (List Char)
  | 0, _ => none
  | _ + 1, [] => some []
  | fuel + 1, b0 :: rest =>
    match decodeOne (b0 :: rest) with
    | some (c, l') => (utf8StrictGo fuel l').map (fun cs => c :: cs)
    | none => none

/-- Strict UTF-8 decoding (Rust `String::from_utf8`): `none` on ill-formed input. -/
def utf8Strict (l : List Nat) : Option (List Char) := utf8StrictGo (l.length + 1) l

/-- Does `p` occur at the front of `l`?  Models Rust `slice::starts_with`. -/
def bstartsWith : List Nat → List Nat → Bool
  | [], _ => true
  | _ :: _, [] => false
  | p :: ps, b :: bs => (p == b) && bstartsWith ps bs

/-- Decimal digit character for `d < 10`. -/
def digitChar (d : Nat) : Char := Char.ofNat (48 + d)

/-- Fuelled most-significant-first decimal rendering; `natDecimal` supplies
enough fuel for the recursion `n ↦ n / 10` to finish. -/
def natDecGo : Nat → Nat → List Char → List Char
  | 0, _, acc => acc
  | fuel + 1, n, acc =>
    if n < 10 then digitChar n :: acc
    else natDecGo fuel (n / 10) (digitChar (n % 10) :: acc)

/-- Canonical decimal rendering of a natural number (Rust's `Display` for
unsigned integers, as used by `format!`). -/
def natDecimal (n : Nat) : List Char := natDecGo (n + 1) n []

/-- ASCII decimal digit test. -/
def isAsciiDigit (c : Char) : Bool := 48 ≤ c.toNat && c.toNat ≤ 57

/-- Value accumulated left-to-right over decimal digit characters. -/
def digitsVal (cs : List Char) : Nat :=
  cs.foldl (fun a c => a * 10 + (c.toNat - 48)) 0

/-- Parse an all-digit non-empty character list. -/
def parseDigits (cs : List Char) : Option Nat :=
  if cs ≠ [] ∧ cs.all isAsciiDigit then some (digitsVal cs) else none

/-- Rust unsigned `from_str`: optional leading plus sign, then digits. -/
def rustParseNat (cs : List Char) : Option Nat :=
  match cs with
  | '+' :: r => parseDigits r
  | _ => parseDigits cs

/-- Rust `str::parse::<u8>` (overflow beyond 255 is an error). -/
def rustParseU8 (cs : List Char) : Option Nat :=
  (rustParseNat cs).bind (fun n => if n ≤ 255 then some n else none)

/-- Rust `str::parse::<u64>` (overflow beyond `2^64 - 1` is an error). -/
def rustParseU64 (cs : List Char) : Option Nat :=
  (rustParseNat cs).bind (fun n => if n < 18446744073709551616 then some n else none)

/-- Unicode `White_Space` test, the predicate behind Rust `str::trim`. -/
def isUnicodeWs (c : Char) : Bool :=
  let v := c.toNat
  (0x9 ≤ v && v ≤ 0xD) || v = 0x20 || v = 0x85 || v = 0xA0 || v = 0x1680 ||
  (0x2000 ≤ v && v ≤ 0x200A) || v = 0x2028 || v = 0x2029 || v = 0x202F ||
  v = 0x205F || v = 0x3000

/-- Rust `str::trim`: drop leading and trailing whitespace. -/
def rustTrim (cs : List Char) : List Char :=
  ((cs.dropWhile isUnicodeWs).reverse.dropWhile isUnicodeWs).reverse

/-- Split at the first occurrence of `sep`, if any. -/
def splitOnFirst (sep : Char) : List Char → Option (List Char × List Char)
  | [] => none
  | c :: cs =>
    if c = sep then some ([], cs)
    else (splitOnFirst sep cs).map (fun p => (c :: p.1, p.2))

/-- Rust `str::splitn(n, sep)` on character lists. -/
def rustSplitn (n : Nat) (sep : Char) (s : List Char) : List (List Char) :=
  match n with
  | 0 => []
  | 1 => [s]
  | m + 2 =>
    match splitOnFirst sep s with
    | none => [s]
    | some (pre, post) => pre :: rustSplitn (m + 1) sep post

/-- Protocol version constant `PROTOCOL_VERSION` from `src/core/protocol.rs`. -/
def PROTOCOL_VERSION : Nat := 2

/-- Wire messages exchanged between peers (`ProtocolMessage` in
`src/core/protocol.rs`).  `u8`/`u64` fields are `Nat` (bounds stated where a
claim needs them); `Vec<u8>` fields are `List Nat`. -/
inductive ProtocolMessage where
  | Version (version : Nat)
  | EphemeralKey (public_key : List Nat)
  | Text (text : String) (timestamp : Nat)
  | FileMeta (filename : String) (size : Nat)
  | FileChunk (chunk : List Nat) (seq : Nat)
  | FileEnd
  | Ping
  | TypingStart
  | TypingStop
deriving DecidableEq, Repr

/-- ASCII bytes of the tag `VERSION:`. -/
def tagVERSION : List Nat := [86, 69, 82, 83, 73, 79, 78, 58]

/-- ASCII bytes of the tag `EPHEMERAL_KEY:`. -/
def tagEPHEMERAL : List Nat := [69, 80, 72, 69, 77, 69, 82, 65, 76, 95, 75, 69, 89, 58]

/-- ASCII bytes of the tag `TEXT:`. -/
def tagTEXT : List Nat := [84, 69, 88, 84, 58]

/-- ASCII bytes of the tag `FILE_META|`. -/
def tagFILEMETA : List Nat := [70, 73, 76, 69, 95, 77, 69, 84, 65, 124]

/-- ASCII bytes of the tag `FILE_CHUNK:`. -/
def tagFILECHUNK : List Nat := [70, 73, 76, 69, 95, 67, 72, 85, 78, 75, 58]

/-- ASCII bytes of the tag `FILE_END:`. -/
def tagFILEEND : List Nat := [70, 73, 76, 69, 95, 69, 78, 68, 58]

/-- ASCII bytes of the tag `PING`. -/
def tagPING : List Nat := [80, 73, 78, 71]

/-- ASCII bytes of the tag `TYPING_START`. -/
def tagTYPINGSTART : List Nat := [84, 89, 80, 73, 78, 71, 95, 83, 84, 65, 82, 84]

/-- ASCII bytes of the tag `TYPING_STOP`. -/
def tagTYPINGSTOP : List Nat := [84, 89, 80, 73, 78, 71, 95, 83, 84, 79, 80]

/-- `ProtocolMessage::to_plain_bytes` from `src/core/protocol.rs`: ASCII tag
followed by the variant payload.  `format!(...).into_bytes()` produces the
UTF-8 bytes of the formatted string, so text and filenames are UTF-8-encoded
and decimal fields are rendered in canonical decimal; the raw-byte variants
append their bytes unchanged.  `Text.timestamp` and `FileChunk.seq` are
dropped (matching the `..` patterns in the source). -/
def to_plain_bytes : ProtocolMessage → List Nat
  | .Version v => tagVERSION ++ (natDecimal v).map Char.toNat
  | .EphemeralKey k => tagEPHEMERAL ++ k
  | .Text t _ => tagTEXT ++ utf8Encode t
  | .FileMeta name size =>
      tagFILEMETA ++ utf8Encode name ++ [124] ++ (natDecimal size).map Char.toNat
  | .FileChunk c _ => tagFILECHUNK ++ c
  | .FileEnd => tagFILEEND
  | .Ping => tagPING
  | .TypingStart => tagTYPINGSTART
  | .TypingStop => tagTYPINGSTOP

/-- `ProtocolMessage::from_plain_bytes` from `src/core/protocol.rs`: dispatch
on the ASCII tag prefix; `none` for unknown prefixes.  The `TEXT:` branch
stamps the message with the local receipt time, which the Rust code obtains
from `current_timestamp_millis()`; the embedding passes that clock reading in
as the explicit parameter `now`. -/
def from_plain_bytes (now : Nat) (b : List Nat) : Option ProtocolMessage :=
  if bstartsWith tagVERSION b then
    match rustParseU8 (rustTrim (utf8Lossy (b.drop 8))) with
    | some v => some (.Version v)
    | none => none
  else if bstartsWith tagEPHEMERAL b then
    some (.EphemeralKey (b.drop 14))
  else if bstartsWith tagTEXT b then
    some (.Text (String.mk (utf8Lossy (b.drop 5))) now)
  else if bstartsWith tagFILEMETA b then
    let s := utf8Lossy b
    let parts := rustSplitn 3 (Char.ofNat 124) s
    if parts.length = 3 then
      match rustParseU64 (parts.getD 2 []) with
      | some size => some (.FileMeta (String.mk (parts.getD 1 [])) size)
      | none => none
    else none
  else if bstartsWith tagFILECHUNK b then
    some (.FileChunk (b.drop 11) 0)
  else if b = tagFILEEND then some .FileEnd
  else if b = tagPING then some .Ping
  else if b = tagTYPINGSTART then some .TypingStart
  else if b = tagTYPINGSTOP then some .TypingStop
  else none

/-- `MAX_PACKET_SIZE` from `src/lib.rs`: 8 MiB. -/
def MAX_PACKET_SIZE : Nat := 8 * 1024 * 1024

/-- Errors raised by the framing layer, mirroring the `std::io::ErrorKind`
values constructed in `src/core/framing.rs` and the `read_exact` failures. -/
inductive FrameErr where
  | invalidInput
  | invalidData
  | eof
  | unexpectedEof
deriving DecidableEq, Repr

/-- A byte stream being written to; `written` accumulates every byte the
framing layer has handed to the underlying stream. -/
structure WStream where
  written : List Nat
deriving DecidableEq, Repr

/-- Big-endian 4-byte rendering of `n % 2^32` (`u32::to_be_bytes` after the
`len as u32` cast). -/
def be32 (n : Nat) : List Nat :=
  [n % 4294967296 / 16777216, n % 16777216 / 65536, n % 65536 / 256, n % 256]

/-- Big-endian value of a 4-byte header (`u32::from_be_bytes`). -/
def be32val (l : List Nat) : Nat := l.foldl (fun a b => a * 256 + b % 256) 0

/-- `send_packet` from `src/core/framing.rs`: reject oversized payloads with
an invalid-input error before touching the stream; otherwise write the 4-byte
big-endian length header, then the payload (the model folds the flush into the
same write). -/
def send_packet (s : WStream) (payload : List Nat) : WStream × Except FrameErr Unit :=
  if payload.length > MAX_PACKET_SIZE then (s, .error .invalidInput)
  else ({ written := s.written ++ be32 payload.length ++ payload }, .ok ())

/-- `recv_packet` from `src/core/framing.rs`: read exactly 4 header bytes
(EOF error if unavailable), parse the big-endian length, reject lengths above
`MAX_PACKET_SIZE` with an invalid-data error before reading any payload byte,
then read exactly `len` payload bytes (unexpected-EOF error if the stream ends
early).  Returns the payload and the unread remainder of the stream. -/
def recv_packet (input : List Nat) : Except FrameErr (List Nat × List Nat) :=
  if input.length < 4 then .error .eof
  else
    let len := be32val (input.take 4)
    let rest := input.drop 4
    if len > MAX_PACKET_SIZE then .error .invalidData
    else if rest.length < len then .error .unexpectedEof
    else .ok (rest.take len, rest.drop len)

/-- Characters `sanitize_filename` in `src/util.rs` replaces: slash,
backslash, colon, asterisk, question mark, double quote, angle brackets,
vertical bar. -/
def forbiddenChars : List Char := ['/', '\\', ':', '*', '?', '"', '<', '>', '|']

/-- `sanitize_filename` from `src/util.rs`: replace every forbidden character
by an underscore, then keep the first 255 **characters** (Rust
`.chars().take(255)`). -/
def sanitize_filename (s : String) : String :=
  String.mk ((s.data.map (fun c => if c ∈ forbiddenChars then '_' else c)).take 255)

/-- UTF-8 byte length of a string (what "255 bytes" would measure). -/
def utf8Len (s : String) : Nat := (utf8Encode s).length

/-- Errors of the incoming-file state machine (`anyhow::bail!` sites in
`src/transfer/receiver.rs`). -/
inductive RecvFileErr where
  | overrun
  | sizeMismatch
deriving DecidableEq, Repr

/-- `IncomingFile` from `src/transfer/receiver.rs`: the staged temp file is
modelled by the bytes written to it (`data`); `received`/`expected` mirror the
`u64` counters; `filename` stores the sanitised name recorded by
`start_meta`. -/
structure IncomingFile where
  received : Nat
  expected : Nat
  data : List Nat
  filename : String
deriving DecidableEq, Repr

/-- `IncomingFile::start_meta`: sanitise the announced filename, create an
empty temp file, record the expected size. -/
def start_meta (filename : String) (size : Nat) : IncomingFile :=
  { received := 0, expected := size, data := [], filename := sanitize_filename filename }

/-- `IncomingFile::append_chunk`: write the chunk to the temp file, add its
length to `received`, and only then fail if `received` exceeds `expected`
(the write and the counter update happen before the check, exactly as in the
source). -/
def append_chunk (f : IncomingFile) (chunk : List Nat) :
    IncomingFile × Except RecvFileErr Unit :=
  let f' := { f with data := f.data ++ chunk, received := f.received + chunk.length }
  if f'.expected < f'.received then (f', .error .overrun) else (f', .ok ())

/-- `IncomingFile::finalize`: flush, then fail unless `received = expected`
(the collision-free renaming that follows on success involves the file system
and is outside this model). -/
def finalize (f : IncomingFile) : Except RecvFileErr Unit :=
  if f.received ≠ f.expected then .error .sizeMismatch else .ok ()

/-- Session lifecycle events (`SessionEvent`); the constructors are the ones
`src/network/session.rs` emits, plus `Error`, which the enum offers but the
session functions never send. -/
inductive SessionEvent where
  | Listening (port : Nat)
  | Connected (peer : String)
  | FingerprintReceived (fingerprint : String)
  | Ready
  | MessageReceived (msg : ProtocolMessage)
  | Disconnected
  | Error (reason : String)
deriving DecidableEq, Repr

/-- Is an event one of the two terminal kinds named by the spec? -/
def isTerminalEvent : SessionEvent → Bool
  | .Disconnected => true
  | .Error _ => true
  | _ => false

/-- Result of one `recv_packet` call as seen by the session (its payload on
success, or an I/O failure). -/
inductive NetIn where
  | frame (bytes : List Nat)
  | ioErr
deriving DecidableEq, Repr

/-- Errors on which `run_host_session` returns `Err(anyhow!(..))`, in source
order of the corresponding early returns. -/
inductive HandshakeError where
  | recvErr
  | parseVersionFailed
  | expectedVersion
  | unsupportedVersion (v : Nat)
  | pemUtf8Error
  | pemDecodeError
  | parseEphemeralFailed
  | expectedEphemeral
  | badX25519Length (n : Nat)
deriving DecidableEq, Repr

/-- Environment of one host session: the values the surrounding process and
the cryptographic libraries supply.  `hostPem` is the PEM serialisation of the
host's RSA public key; `pemDecodeOk` abstracts `pem_decode_public` success;
`fingerprintHex` abstracts the SHA-256 hex fingerprint of the peer PEM;
`ephPub` is the freshly generated ephemeral X25519 public key and `derive`
abstracts `derive_session_key` applied to the host ephemeral secret, the
peer's public key and `HKDF_INFO`; `now` is the local clock reading used when
decoding `TEXT:` payloads. -/
structure HostEnv where
  port : Nat
  peerAddr : String
  hostPem : List Nat
  pemDecodeOk : String → Bool
  fingerprintHex : String → String
  ephPub : List Nat
  derive : List Nat → List Nat
  now : Nat

instance {e a : Type} [DecidableEq e] [DecidableEq a] : DecidableEq (Except e a) := fun x y =>
  match x, y with
  | .ok u, .ok v => decidable_of_iff (u = v) (by simp)
  | .error u, .error v => decidable_of_iff (u = v) (by simp)
  | .ok _, .error _ => isFalse (fun h => by simp at h)
  | .error _, .ok _ => isFalse (fun h => by simp at h)

/-- Observable outcome of a host handshake run. -/
structure HostResult where
  events : List SessionEvent
  sent : List (List Nat)
  outcome : Except HandshakeError (List Nat)
deriving DecidableEq, Repr

/-- The handshake phase of `run_host_session` (`src/network/session.rs`,
steps 1–12), driven by the list `ins` of successive `recv_packet` results.
Listener binding, accept and the `send_packet` calls are taken to succeed (a
send failure only adds one more early-return path).  The source emits the
`FingerprintReceived` event, sleeps 500 ms, and proceeds: there is **no**
verdict channel in the function's signature, so the model consumes no verdict
either.  On success the outcome carries the derived session key and the
`Ready` event has been emitted. -/
def hostHandshake (env : HostEnv) (ins : List NetIn) : HostResult :=
  let evs0 := [SessionEvent.Listening env.port, SessionEvent.Connected env.peerAddr]
  let sent0 := [to_plain_bytes (.Version PROTOCOL_VERSION)]
  match ins with
  | .ioErr :: _ => ⟨evs0, sent0, .error .recvErr⟩
  | [] => ⟨evs0, sent0, .error .recvErr⟩
  | .frame vb :: ins1 =>
    match from_plain_bytes env.now vb with
    | none => ⟨evs0, sent0, .error .parseVersionFailed⟩
    | some (.Version v) =>
      if v < 2 then ⟨evs0, sent0, .error (.unsupportedVersion v)⟩
      else
        let sent1 := sent0 ++ [env.hostPem]
        match ins1 with
        | .ioErr :: _ => ⟨evs0, sent1, .error .recvErr⟩
        | [] => ⟨evs0, sent1, .error .recvErr⟩
        | .frame pemB :: ins2 =>
          match utf8Strict pemB with
          | none => ⟨evs0, sent1, .error .pemUtf8Error⟩
          | some pemChars =>
            let pemStr := String.mk pemChars
            if env.pemDecodeOk pemStr then
              let fp := env.fingerprintHex pemStr
              let evs1 := evs0 ++ [SessionEvent.FingerprintReceived fp]
              let sent2 := sent1 ++ [to_plain_bytes (.EphemeralKey env.ephPub)]
              match ins2 with
              | .ioErr :: _ => ⟨evs1, sent2, .error .recvErr⟩
              | [] => ⟨evs1, sent2, .error .recvErr⟩
              | .frame ephB :: _ =>
                match from_plain_bytes env.now ephB with
                | none => ⟨evs1, sent2, .error .parseEphemeralFailed⟩
                | some (.EphemeralKey pk) =>
                  if pk.length ≠ 32 then ⟨evs1, sent2, .error (.badX25519Length pk.length)⟩
                  else ⟨evs1 ++ [SessionEvent.Ready], sent2, .ok (env.derive pk)⟩
                | some _ => ⟨evs1, sent2, .error .expectedEphemeral⟩
            else ⟨evs0, sent1, .error .pemDecodeError⟩
    | some _ => ⟨evs0, sent0, .error .expectedVersion⟩

/-- One iteration's worth of environment input to `run_message_loop`'s
`tokio::select!`: either the socket became readable (with the `recv_packet`
result) or an outbound command arrived (with the subsequent `send_packet`
result). -/
inductive LoopStep where
  | recvOk (encrypted : List Nat)
  | recvErr
  | sendMsg (msg : ProtocolMessage) (sendOk : Bool)
deriving DecidableEq, Repr

/-- The post-handshake loop of `run_message_loop` (`src/network/session.rs`),
driven by a schedule of select outcomes; `decrypt` abstracts
`AesCipher::decrypt` under the session key.  Per the source: a frame that
decrypts and parses is forwarded as `MessageReceived`; a frame that fails to
parse is logged and dropped; a frame that fails to decrypt is logged and
dropped — the loop continues; a receive error or a send error breaks the
loop, after which a single `Disconnected` event is emitted.  An exhausted
schedule means the loop is still blocked waiting, so no event follows. -/
def runMessageLoop (decrypt : List Nat → Option (List Nat)) (now : Nat) :
    List LoopStep → List SessionEvent
  | [] => []
  | .recvOk enc :: rest =>
    match decrypt enc with
    | some plaintext =>
      match from_plain_bytes now plaintext with
      | some msg => .MessageReceived msg :: runMessageLoop decrypt now rest
      | none => runMessageLoop decrypt now rest
    | none => runMessageLoop decrypt now rest
  | .recvErr :: _ => [.Disconnected]
  | .sendMsg _ ok :: rest =>
    if ok then runMessageLoop decrypt now rest else [.Disconnected]

/-- Forget the fields the wire encoding documents as not transmitted:
`Text.timestamp` (receiver stamps on receipt) and `FileChunk.seq` (decoder
always restores 0).  Two messages are "equivalent ignoring non-transmitted
fields" exactly when their images under `stripLocal` agree. -/
def stripLocal : ProtocolMessage → ProtocolMessage
  | .Text t _ => .Text t 0
  | .FileChunk c _ => .FileChunk c 0
  | m => m

/-- A message constructible in the Rust data model (`u8`/`u64` field bounds),
with the extra restriction the codec round-trip forces: a `FileMeta` filename
must not contain the field separator `|` (code point 124). -/
def wireOk : ProtocolMessage → Prop
  | .Version v => v < 256
  | .FileMeta name size =>
      size < 18446744073709551616 ∧ Char.ofNat 124 ∉ name.data
  | _ => True

/-- A concrete host environment used to instantiate session runs. -/
def envA : HostEnv where
  port := 4000
  peerAddr := String.mk [Char.ofNat 99]
  hostPem := [80, 69, 77]
  pemDecodeOk := fun _ => true
  fingerprintHex := fun _ => String.mk [Char.ofNat 102, Char.ofNat 112]
  ephPub := List.replicate 32 7
  derive := fun _ => List.replicate 32 9
  now := 0

/-! Helper lemmas: UTF-8 round-trips, decimal round-trips, prefix dispatch. -/

theorem char_valid_nat (c : Char) :
    c.toNat < 0xD800 ∨ (0xDFFF < c.toNat ∧ c.toNat < 0x110000) := by
  have h := c.valid
  simpa [UInt32.isValidChar, Nat.isValidChar, Char.toNat] using h

theorem toNat_ofNat_valid {n : Nat} (h : n.isValidChar) : (Char.ofNat n).toNat = n := by
  simp [Char.ofNat, h, Char.ofNatAux, Char.toNat, UInt32.toNat]

@[simp] theorem bstartsWith_nil (l : List Nat) : bstartsWith [] l = true := rfl

@[simp] theorem bstartsWith_cons_nil (p : Nat) (ps : List Nat) :
    bstartsWith (p :: ps) [] = false := rfl

@[simp] theorem bstartsWith_cons_cons (p b : Nat) (ps bs : List Nat) :
    bstartsWith (p :: ps) (b :: bs) = ((p == b) && bstartsWith ps bs) := rfl

theorem bstartsWith_append (p l : List Nat) : bstartsWith p (p ++ l) = true := by
  induction p with
  | nil => rfl
  | cons a as ih => simp [ih]

theorem decodeOne_length {l l' : List Nat} {c : Char}
    (h : decodeOne l = some (c, l')) : l'.length < l.length := by
  rcases l with _ | ⟨b0, rest⟩
  · simp [decodeOne] at h
  · simp only [decodeOne] at h
    repeat' split at h
    all_goals simp_all
    all_goals omega

theorem invalidLen_pos (l : List Nat) : 0 < invalidLen l := by
  rcases l with _ | ⟨b0, _ | ⟨b1, _ | ⟨b2, t⟩⟩⟩
  · simp [invalidLen]
  · simp [invalidLen]
  · simp only [invalidLen]
    split <;> omega
  · simp only [invalidLen]
    repeat' split
    all_goals omega

theorem utf8LossyGo_congr :
    ∀ (f₁ : Nat) (l : List Nat) (f₂ : Nat), l.length ≤ f₁ → l.length ≤ f₂ →
      utf8LossyGo f₁ l = utf8LossyGo f₂ l := by
  intro f₁
  induction f₁ with
  | zero =>
    intro l f₂ h1 _
    have : l = [] := by
      cases l with
      | nil => rfl
      | cons a as => simp at h1
    subst this
    cases f₂ <;> rfl
  | succ f ih =>
    intro l f₂ h1 h2
    cases l with
    | nil => cases f₂ <;> rfl
    | cons b0 rest =>
      cases f₂ with
      | zero => simp at h2
      | succ f' =>
        unfold utf8LossyGo
        cases hd : decodeOne (b0 :: rest) with
        | some p =>
          obtain ⟨c, l'⟩ := p
          have hlen := decodeOne_length hd
          simp only
          rw [ih l' f' (by simp at h1 hlen ⊢; omega) (by simp at h2 hlen ⊢; omega)]
        | none =>
          have hil := invalidLen_pos (b0 :: rest)
          have hdrop : ((b0 :: rest).drop (invalidLen (b0 :: rest))).length ≤ f := by
            simp only [List.length_drop, List.length_cons]
            simp only [List.length_cons] at h1
            omega
          have hdrop' : ((b0 :: rest).drop (invalidLen (b0 :: rest))).length ≤ f' := by
            simp only [List.length_drop, List.length_cons]
            simp only [List.length_cons] at h2
            omega
          simp only
          rw [ih _ f' hdrop hdrop']

theorem utf8Lossy_step {l l' : List Nat} {c : Char}
    (h : decodeOne l = some (c, l')) : utf8Lossy l = c :: utf8Lossy l' := by
  cases l with
  | nil => simp [decodeOne] at h
  | cons b0 rest =>
    have hlen := decodeOne_length h
    have hstep : utf8LossyGo (rest.length + 1) (b0 :: rest) = c :: utf8LossyGo rest.length l' := by
      simp only [utf8LossyGo, h]
    unfold utf8Lossy
    simp only [List.length_cons, hstep]
    rw [utf8LossyGo_congr rest.length l' l'.length (by simp at hlen ⊢; omega) le_rfl]

theorem decodeOne_encodeChar (c : Char) (l : List Nat) :
    decodeOne (utf8EncodeChar c ++ l) = some (c, l) := by
  have hv := char_valid_nat c
  have hofn : Char.ofNat c.toNat = c := Char.ofNat_toNat c
  rcases Nat.lt_or_ge c.toNat 0x80 with h1 | h1
  · have henc : utf8EncodeChar c = [c.toNat] := by
      simp only [utf8EncodeChar]
      rw [if_pos h1]
    rw [henc]
    simp only [List.cons_append, List.nil_append, decodeOne]
    rw [if_pos h1, hofn]
  · rcases Nat.lt_or_ge c.toNat 0x800 with h2 | h2
    · have henc : utf8EncodeChar c = [0xC0 + c.toNat / 64, 0x80 + c.toNat % 64] := by
        simp only [utf8EncodeChar]
        rw [if_neg (by omega), if_pos h2]
      rw [henc]
      simp only [List.cons_append, List.nil_append, decodeOne]
      rw [if_neg (by omega)]
      rw [if_pos (show (0xC2 ≤ 0xC0 + c.toNat / 64 && 0xC0 + c.toNat / 64 ≤ 0xDF) = true by
        simp only [Bool.and_eq_true, decide_eq_true_eq]
        omega)]
      rw [if_pos (show isCont (0x80 + c.toNat % 64) = true by
        simp only [isCont, Bool.and_eq_true, decide_eq_true_eq]
        omega)]
      have hval : (0xC0 + c.toNat / 64 - 0xC0) * 64 + (0x80 + c.toNat % 64 - 0x80)
          = c.toNat := by omega
      rw [hval, hofn]
    · rcases Nat.lt_or_ge c.toNat 0x10000 with h3 | h3
      · have henc : utf8EncodeChar c =
            [0xE0 + c.toNat / 4096, 0x80 + c.toNat / 64 % 64, 0x80 + c.toNat % 64] := by
          simp only [utf8EncodeChar]
          rw [if_neg (by omega), if_neg (by omega), if_pos h3]
        rw [henc]
        simp only [List.cons_append, List.nil_append, decodeOne]
        rw [if_neg (by omega)]
        rw [if_neg (show ¬((0xC2 ≤ 0xE0 + c.toNat / 4096
              && 0xE0 + c.toNat / 4096 ≤ 0xDF) = true) by
          simp only [Bool.and_eq_true, decide_eq_true_eq]
          omega)]
        rw [if_pos (show (0xE0 ≤ 0xE0 + c.toNat / 4096
              && 0xE0 + c.toNat / 4096 ≤ 0xEF) = true by
          simp only [Bool.and_eq_true, decide_eq_true_eq]
          omega)]
        rw [if_pos (show (cont2Ok (0xE0 + c.toNat / 4096) (0x80 + c.toNat / 64 % 64)
              && isCont (0x80 + c.toNat % 64)) = true by
          simp only [cont2Ok, isCont]
          split_ifs <;> simp only [Bool.and_eq_true, decide_eq_true_eq] <;> omega)]
        have hval : (0xE0 + c.toNat / 4096 - 0xE0) * 4096
            + (0x80 + c.toNat / 64 % 64 - 0x80) * 64 + (0x80 + c.toNat % 64 - 0x80)
            = c.toNat := by omega
        rw [hval, hofn]
      · have henc : utf8EncodeChar c =
            [0xF0 + c.toNat / 262144, 0x80 + c.toNat / 4096 % 64,
             0x80 + c.toNat / 64 % 64, 0x80 + c.toNat % 64] := by
          simp only [utf8EncodeChar]
          rw [if_neg (by omega), if_neg (by omega), if_neg (by omega)]
        rw [henc]
        simp only [List.cons_append, List.nil_append, decodeOne]
        rw [if_neg (by omega)]
        rw [if_neg (show ¬((0xC2 ≤ 0xF0 + c.toNat / 262144
              && 0xF0 + c.toNat / 262144 ≤ 0xDF) = true) by
          simp only [Bool.and_eq_true, decide_eq_true_eq]
          omega)]
        rw [if_neg (show ¬((0xE0 ≤ 0xF0 + c.toNat / 262144
              && 0xF0 + c.toNat / 262144 ≤ 0xEF) = true) by
          simp only [Bool.and_eq_true, decide_eq_true_eq]
          omega)]
        rw [if_pos (show (0xF0 ≤ 0xF0 + c.toNat / 262144
              && 0xF0 + c.toNat / 262144 ≤ 0xF4) = true by
          simp only [Bool.and_eq_true, decide_eq_true_eq]
          omega)]
        rw [if_pos (show (cont2Ok (0xF0 + c.toNat / 262144) (0x80 + c.toNat / 4096 % 64)
              && isCont (0x80 + c.toNat / 64 % 64) && isCont (0x80 + c.toNat % 64)) = true by
          simp only [cont2Ok, isCont]
          split_ifs <;> simp only [Bool.and_eq_true, decide_eq_true_eq] <;> omega)]
        have hval : (0xF0 + c.toNat / 262144 - 0xF0) * 262144
            + (0x80 + c.toNat / 4096 % 64 - 0x80) * 4096
            + (0x80 + c.toNat / 64 % 64 - 0x80) * 64 + (0x80 + c.toNat % 64 - 0x80)
            = c.toNat := by omega
        rw [hval, hofn]

theorem utf8Lossy_encodeChar (c : Char) (l : List Nat) :
    utf8Lossy (utf8EncodeChar c ++ l) = c :: utf8Lossy l :=
  utf8Lossy_step (decodeOne_encodeChar c l)

theorem utf8Lossy_encodeList_append (cs : List Char) (l : List Nat) :
    utf8Lossy (utf8EncodeList cs ++ l) = cs ++ utf8Lossy l := by
  induction cs with
  | nil => simp [utf8EncodeList]
  | cons c cs ih =>
    simp only [utf8EncodeList, List.append_assoc, utf8Lossy_encodeChar, ih, List.cons_append]

@[simp] theorem utf8Lossy_nil : utf8Lossy [] = [] := rfl

theorem utf8Lossy_encodeList (cs : List Char) : utf8Lossy (utf8EncodeList cs) = cs := by
  have h := utf8Lossy_encodeList_append cs []
  simpa using h

theorem natDecGo_congr :
    ∀ (f₁ : Nat), ∀ (f₂ n : Nat) (acc : List Char), n < f₁ → n < f₂ →
      natDecGo f₁ n acc = natDecGo f₂ n acc := by
  intro f₁
  induction f₁ with
  | zero => intro f₂ n acc h1 _; omega
  | succ f ih =>
    intro f₂ n acc h1 h2
    cases f₂ with
    | zero => omega
    | succ f' =>
      by_cases h10 : n < 10
      · simp [natDecGo, h10]
      · simp only [natDecGo, if_neg h10]
        exact ih f' (n / 10) _ (by omega) (by omega)

theorem natDecGo_acc :
    ∀ (f : Nat), ∀ (n : Nat) (acc : List Char), n < f →
      natDecGo f n acc = natDecGo f n [] ++ acc := by
  intro f
  induction f with
  | zero => intro n acc h; omega
  | succ f ih =>
    intro n acc h
    by_cases h10 : n < 10
    · simp [natDecGo, h10]
    · simp only [natDecGo, if_neg h10]
      have hd : n / 10 < f := by omega
      rw [ih (n / 10) _ hd, ih (n / 10) [digitChar (n % 10)] hd, List.append_assoc]
      rfl

theorem natDecimal_eq (n : Nat) :
    natDecimal n =
      if n < 10 then [digitChar n] else natDecimal (n / 10) ++ [digitChar (n % 10)] := by
  by_cases h10 : n < 10
  · simp [natDecimal, natDecGo, h10]
  · rw [if_neg h10]
    show natDecGo (n + 1) n [] = _
    rw [show natDecGo (n + 1) n [] = natDecGo n (n / 10) [digitChar (n % 10)] from by
      simp [natDecGo, h10]]
    rw [natDecGo_congr n (n / 10 + 1) (n / 10) _ (by omega) (by omega)]
    rw [natDecGo_acc (n / 10 + 1) (n / 10) _ (by omega)]
    rfl

theorem digitChar_toNat (d : Nat) (h : d < 10) : (digitChar d).toNat = 48 + d :=
  toNat_ofNat_valid (Or.inl (by omega))

theorem natDecimal_all_digits (n : Nat) :
    (∀ c ∈ natDecimal n, isAsciiDigit c = true) ∧ natDecimal n ≠ [] := by
  induction n using Nat.strong_induction_on with
  | _ n ih =>
    rw [natDecimal_eq]
    by_cases h10 : n < 10
    · simp only [if_pos h10]
      refine ⟨?_, by simp⟩
      intro c hc
      simp only [List.mem_singleton] at hc
      subst hc
      simp [isAsciiDigit, digitChar_toNat n h10]
      omega
    · simp only [if_neg h10]
      obtain ⟨ihd, _⟩ := ih (n / 10) (by omega)
      refine ⟨?_, by simp⟩
      intro c hc
      rcases List.mem_append.1 hc with hmem | hmem
      · exact ihd c hmem
      · simp only [List.mem_singleton] at hmem
        subst hmem
        simp [isAsciiDigit, digitChar_toNat (n % 10) (by omega)]
        omega

theorem digitsVal_natDecimal (n : Nat) : digitsVal (natDecimal n) = n := by
  induction n using Nat.strong_induction_on with
  | _ n ih =>
    rw [natDecimal_eq]
    by_cases h10 : n < 10
    · simp [if_pos h10, digitsVal, digitChar_toNat n h10]
    · simp only [if_neg h10, digitsVal, List.foldl_append, List.foldl_cons, List.foldl_nil]
      have := ih (n / 10) (by omega)
      simp only [digitsVal] at this
      rw [this, digitChar_toNat (n % 10) (by omega)]
      omega

theorem parseDigits_natDecimal (n : Nat) : parseDigits (natDecimal n) = some n := by
  obtain ⟨hall, hne⟩ := natDecimal_all_digits n
  simp only [parseDigits, List.all_eq_true]
  rw [if_pos ⟨hne, hall⟩, digitsVal_natDecimal]

theorem rustParseNat_natDecimal (n : Nat) : rustParseNat (natDecimal n) = some n := by
  obtain ⟨hall, hne⟩ := natDecimal_all_digits n
  have hparse := parseDigits_natDecimal n
  rcases hd : natDecimal n with _ | ⟨c, r⟩
  · exact absurd hd hne
  · have hc : c ≠ '+' := by
      intro he
      have := hall c (by rw [hd]; simp)
      subst he
      simp [isAsciiDigit] at this
    rw [hd] at hparse
    unfold rustParseNat
    split
    · next heq =>
      rw [List.cons.injEq] at heq
      exact absurd heq.1 hc
    · exact hparse

theorem rustParseU8_natDecimal (n : Nat) (h : n ≤ 255) :
    rustParseU8 (natDecimal n) = some n := by
  simp [rustParseU8, rustParseNat_natDecimal, h]

theorem rustParseU64_natDecimal (n : Nat) (h : n < 18446744073709551616) :
    rustParseU64 (natDecimal n) = some n := by
  simp [rustParseU64, rustParseNat_natDecimal, h]

theorem digit_not_ws (c : Char) (h : isAsciiDigit c = true) : isUnicodeWs c = false := by
  simp only [isAsciiDigit, Bool.and_eq_true, decide_eq_true_eq] at h
  simp only [isUnicodeWs, Bool.or_eq_false_iff, Bool.and_eq_false_iff]
  norm_num
  omega

theorem rustTrim_all_digits (cs : List Char) (h : ∀ c ∈ cs, isAsciiDigit c = true) :
    rustTrim cs = cs := by
  have hws : ∀ c ∈ cs, isUnicodeWs c = false := fun c hc => digit_not_ws c (h c hc)
  have h1 : cs.dropWhile isUnicodeWs = cs := by
    cases cs with
    | nil => rfl
    | cons a t => simp [List.dropWhile_cons, hws a (by simp)]
  rw [rustTrim, h1]
  have h2 : cs.reverse.dropWhile isUnicodeWs = cs.reverse := by
    cases hr : cs.reverse with
    | nil => rfl
    | cons a t =>
      have ha : a ∈ cs := by
        rw [← List.mem_reverse, hr]
        simp
      simp [List.dropWhile_cons, hws a ha]
  rw [h2, List.reverse_reverse]

theorem utf8EncodeList_ascii (cs : List Char) (h : ∀ c ∈ cs, c.toNat < 128) :
    utf8EncodeList cs = cs.map Char.toNat := by
  induction cs with
  | nil => rfl
  | cons c t ih =>
    have hc : utf8EncodeChar c = [c.toNat] := by
      simp only [utf8EncodeChar]
      rw [if_pos (h c (by simp))]
    simp only [utf8EncodeList, hc, List.map_cons, List.cons_append, List.nil_append]
    rw [ih (fun x hx => h x (by simp [hx]))]

theorem utf8EncodeList_append (a b : List Char) :
    utf8EncodeList (a ++ b) = utf8EncodeList a ++ utf8EncodeList b := by
  induction a with
  | nil => rfl
  | cons c t ih => simp [utf8EncodeList, ih]

theorem splitOnFirst_append_sep (sep : Char) (xs ys : List Char) (h : sep ∉ xs) :
    splitOnFirst sep (xs ++ sep :: ys) = some (xs, ys) := by
  induction xs with
  | nil => simp [splitOnFirst]
  | cons a t ih =>
    have ha : a ≠ sep := by
      intro he
      exact h (by simp [he])
    simp only [List.cons_append, splitOnFirst, if_neg ha, List.append_eq]
    rw [ih (fun hm => h (by simp [hm]))]
    rfl

theorem natDecimal_ascii (n : Nat) : ∀ c ∈ natDecimal n, c.toNat < 128 := by
  intro c hc
  have := (natDecimal_all_digits n).1 c hc
  simp only [isAsciiDigit, Bool.and_eq_true, decide_eq_true_eq] at this
  omega

theorem digit_bytes_utf8 (n : Nat) :
    (natDecimal n).map Char.toNat = utf8EncodeList (natDecimal n) :=
  (utf8EncodeList_ascii _ (natDecimal_ascii n)).symm

theorem from_plain_version (now v : Nat) (hv : v < 256) :
    from_plain_bytes now (to_plain_bytes (ProtocolMessage.Version v)) =
      some (.Version v) := by
  have hdig := natDecimal_all_digits v
  simp only [to_plain_bytes, from_plain_bytes]
  rw [if_pos (bstartsWith_append tagVERSION _)]
  have hdrop : (tagVERSION ++ (natDecimal v).map Char.toNat).drop 8
      = (natDecimal v).map Char.toNat := by
    rw [show (8 : Nat) = tagVERSION.length from rfl, List.drop_left]
  rw [hdrop, digit_bytes_utf8, utf8Lossy_encodeList, rustTrim_all_digits _ hdig.1,
    rustParseU8_natDecimal v (by omega)]

theorem from_plain_ephemeral (now : Nat) (k : List Nat) :
    from_plain_bytes now (to_plain_bytes (ProtocolMessage.EphemeralKey k)) =
      some (.EphemeralKey k) := by
  simp only [to_plain_bytes, from_plain_bytes]
  rw [if_neg (by simp [tagVERSION, tagEPHEMERAL]), if_pos (bstartsWith_append tagEPHEMERAL _)]
  rw [show (tagEPHEMERAL ++ k).drop 14 = k from by
    rw [show (14 : Nat) = tagEPHEMERAL.length from rfl, List.drop_left]]

theorem from_plain_text (now : Nat) (t : String) (ts : Nat) :
    from_plain_bytes now (to_plain_bytes (ProtocolMessage.Text t ts)) =
      some (.Text t now) := by
  simp only [to_plain_bytes, from_plain_bytes, utf8Encode]
  rw [if_neg (by simp [tagVERSION, tagTEXT]), if_neg (by simp [tagEPHEMERAL, tagTEXT]),
    if_pos (bstartsWith_append tagTEXT _)]
  rw [show (tagTEXT ++ utf8EncodeList t.data).drop 5 = utf8EncodeList t.data from by
    rw [show (5 : Nat) = tagTEXT.length from rfl, List.drop_left]]
  rw [utf8Lossy_encodeList]

theorem from_plain_filechunk_head (now : Nat) (rest : List Nat) :
    from_plain_bytes now (tagFILECHUNK ++ rest) = some (.FileChunk rest 0) := by
  simp only [from_plain_bytes]
  rw [if_neg (by simp [tagVERSION, tagFILECHUNK]), if_neg (by simp [tagEPHEMERAL, tagFILECHUNK]),
    if_neg (by simp [tagTEXT, tagFILECHUNK]), if_neg (by simp [tagFILEMETA, tagFILECHUNK]),
    if_pos (bstartsWith_append tagFILECHUNK _)]
  rw [show (tagFILECHUNK ++ rest).drop 11 = rest from by
    rw [show (11 : Nat) = tagFILECHUNK.length from rfl, List.drop_left]]

theorem from_plain_filemeta (now : Nat) (name : String) (size : Nat)
    (hsz : size < 18446744073709551616) (hpipe : Char.ofNat 124 ∉ name.data) :
    from_plain_bytes now (to_plain_bytes (ProtocolMessage.FileMeta name size)) =
      some (.FileMeta name size) := by
  have hdig := natDecimal_all_digits size
  simp only [to_plain_bytes, from_plain_bytes, utf8Encode]
  rw [if_neg (by simp [tagVERSION, tagFILEMETA]), if_neg (by simp [tagEPHEMERAL, tagFILEMETA]),
    if_neg (by simp [tagTEXT, tagFILEMETA]),
    if_pos (by
      have h := bstartsWith_append tagFILEMETA
        (utf8EncodeList name.data ++ [124] ++ (natDecimal size).map Char.toNat)
      simpa [List.append_assoc] using h)]
  have henc : utf8EncodeList
        (([Char.ofNat 70, Char.ofNat 73, Char.ofNat 76, Char.ofNat 69, Char.ofNat 95,
           Char.ofNat 77, Char.ofNat 69, Char.ofNat 84, Char.ofNat 65, Char.ofNat 124])
          ++ (name.data ++ Char.ofNat 124 :: natDecimal size))
      = tagFILEMETA ++ utf8EncodeList name.data ++ [124]
          ++ (natDecimal size).map Char.toNat := by
    rw [utf8EncodeList_append, utf8EncodeList_append]
    rw [show utf8EncodeList (Char.ofNat 124 :: natDecimal size)
        = 124 :: utf8EncodeList (natDecimal size) from by
      simp only [utf8EncodeList]
      rw [show utf8EncodeChar (Char.ofNat 124) = [124] from by decide]
      rfl]
    rw [← digit_bytes_utf8]
    rw [show utf8EncodeList
        [Char.ofNat 70, Char.ofNat 73, Char.ofNat 76, Char.ofNat 69, Char.ofNat 95,
         Char.ofNat 77, Char.ofNat 69, Char.ofNat 84, Char.ofNat 65, Char.ofNat 124]
        = tagFILEMETA from by decide]
    simp [List.append_assoc]
  rw [← henc, utf8Lossy_encodeList]
  rw [show (([Char.ofNat 70, Char.ofNat 73, Char.ofNat 76, Char.ofNat 69, Char.ofNat 95,
        Char.ofNat 77, Char.ofNat 69, Char.ofNat 84, Char.ofNat 65, Char.ofNat 124])
        ++ (name.data ++ Char.ofNat 124 :: natDecimal size))
      = ([Char.ofNat 70, Char.ofNat 73, Char.ofNat 76, Char.ofNat 69, Char.ofNat 95,
          Char.ofNat 77, Char.ofNat 69, Char.ofNat 84, Char.ofNat 65])
        ++ Char.ofNat 124 :: (name.data ++ Char.ofNat 124 :: natDecimal size) from by
    simp]
  have hsplit1 := splitOnFirst_append_sep (Char.ofNat 124)
    ([Char.ofNat 70, Char.ofNat 73, Char.ofNat 76, Char.ofNat 69, Char.ofNat 95,
      Char.ofNat 77, Char.ofNat 69, Char.ofNat 84, Char.ofNat 65])
    (name.data ++ Char.ofNat 124 :: natDecimal size) (by decide)
  have hsplit2 := splitOnFirst_append_sep (Char.ofNat 124) name.data (natDecimal size) hpipe
  simp only [rustSplitn, hsplit1, hsplit2]
  simp only [List.length_cons, List.length_nil, List.getD]
  norm_num
  rw [rustParseU64_natDecimal size hsz]

theorem runMessageLoop_shape (decrypt : List Nat → Option (List Nat)) (now : Nat) :
    ∀ steps : List LoopStep,
      (∀ e ∈ runMessageLoop decrypt now steps, isTerminalEvent e = false) ∨
      (∃ pre, runMessageLoop decrypt now steps = pre ++ [SessionEvent.Disconnected] ∧
        ∀ e ∈ pre, isTerminalEvent e = false) := by
  intro steps
  induction steps with
  | nil => left; simp [runMessageLoop]
  | cons step rest ih =>
    cases step with
    | recvOk enc =>
      cases hd : decrypt enc with
      | none => simpa [runMessageLoop, hd] using ih
      | some pt =>
        cases hp : from_plain_bytes now pt with
        | none => simpa [runMessageLoop, hd, hp] using ih
        | some msg =>
          rcases ih with hall | ⟨pre, hpre, hterm⟩
          · left
            simp only [runMessageLoop, hd, hp]
            intro e he
            rcases List.mem_cons.1 he with he | he
            · subst he; rfl
            · exact hall e he
          · right
            refine ⟨SessionEvent.MessageReceived msg :: pre, ?_, ?_⟩
            · simp only [runMessageLoop, hd, hp, hpre, List.cons_append]
            · intro e he
              rcases List.mem_cons.1 he with he | he
              · subst he; rfl
              · exact hterm e he
    | recvErr =>
      right
      exact ⟨[], by simp [runMessageLoop], by simp⟩
    | sendMsg m ok =>
      cases ok with
      | true => simpa [runMessageLoop] using ih
      | false =>
        right
        exact ⟨[], by simp [runMessageLoop], by simp⟩

theorem hostHandshake_no_terminal (env : HostEnv) (ins : List NetIn) :
    ∀ e ∈ (hostHandshake env ins).events, isTerminalEvent e = false := by
  have base2 : ∀ e ∈ [SessionEvent.Listening env.port, SessionEvent.Connected env.peerAddr],
      isTerminalEvent e = false := by
    intro e he
    fin_cases he <;> rfl
  have base3 : ∀ fp, ∀ e ∈ [SessionEvent.Listening env.port,
      SessionEvent.Connected env.peerAddr, SessionEvent.FingerprintReceived fp],
      isTerminalEvent e = false := by
    intro fp e he
    fin_cases he <;> rfl
  have base4 : ∀ fp, ∀ e ∈ [SessionEvent.Listening env.port,
      SessionEvent.Connected env.peerAddr, SessionEvent.FingerprintReceived fp,
      SessionEvent.Ready], isTerminalEvent e = false := by
    intro fp e he
    fin_cases he <;> rfl
  rcases ins with _ | ⟨i1, ins1⟩
  · exact base2
  cases i1 with
  | ioErr => exact base2
  | frame vb =>
    simp only [hostHandshake]
    cases hv : from_plain_bytes env.now vb with
    | none => exact base2
    | some msg =>
      cases msg
      case Version v =>
        dsimp only
        by_cases hlt : v < 2
        · rw [if_pos hlt]
          exact base2
        · rw [if_neg hlt]
          rcases ins1 with _ | ⟨i2, ins2⟩
          · exact base2
          cases i2 with
          | ioErr => exact base2
          | frame pemB =>
            dsimp only
            cases hu : utf8Strict pemB with
            | none => exact base2
            | some pemChars =>
              dsimp only
              cases hok : env.pemDecodeOk (String.mk pemChars) with
              | false => exact base2
              | true =>
                rcases ins2 with _ | ⟨i3, ins3⟩
                · exact base3 _
                cases i3 with
                | ioErr => exact base3 _
                | frame ephB =>
                  dsimp only
                  cases hf : from_plain_bytes env.now ephB with
                  | none => exact base3 _
                  | some m2 =>
                    cases m2
                    next v2 => exact base3 _
                    next pk =>
                      dsimp only
                      by_cases hl : pk.length ≠ 32
                      · rw [if_pos hl]
                        exact base3 _
                      · rw [if_neg hl]
                        exact base4 _
                    all_goals exact base3 _
      all_goals exact base2

/-! Claim theorems. -/

/-- Claim C1 (code bug): the spec requires the session to block on the
fingerprint-verdict channel and never auto-accept, sending its ephemeral key
only after an accept verdict.  `run_host_session` has no verdict-channel
parameter at all: it emits the fingerprint event, sleeps 500 ms and proceeds
(`src/network/session.rs:84-86`, with a TODO admitting the gap).  This theorem
evaluates the embedded handshake on a cooperative peer script: with no verdict
ever supplied, the session still sends its ephemeral key, derives the session
key and reaches `Ready`. -/
theorem c1_handshake_auto_accepts_without_verdict :
    hostHandshake envA
      [NetIn.frame (to_plain_bytes (ProtocolMessage.Version 2)),
       NetIn.frame [80, 69, 77],
       NetIn.frame (to_plain_bytes (ProtocolMessage.EphemeralKey (List.replicate 32 1)))]
    = { events := [SessionEvent.Listening 4000,
          SessionEvent.Connected (String.mk [Char.ofNat 99]),
          SessionEvent.FingerprintReceived (String.mk [Char.ofNat 102, Char.ofNat 112]),
          SessionEvent.Ready],
        sent := [to_plain_bytes (ProtocolMessage.Version 2), [80, 69, 77],
          to_plain_bytes (ProtocolMessage.EphemeralKey (List.replicate 32 7))],
        outcome := Except.ok (List.replicate 32 9) } := by
  decide

/-- Claim C2 counterexample: a frame whose AEAD decryption fails does not
terminate the loop and surfaces no error event — the loop goes on to deliver
the next frame's message.  Here the first frame fails decryption, yet
`MessageReceived Ping` for the second frame follows, and the only terminal
event is the `Disconnected` from the later receive error. -/
theorem c2_loop_survives_decrypt_failure :
    runMessageLoop (fun enc => if enc = [0] then none else some tagPING) 5
      [LoopStep.recvOk [0], LoopStep.recvOk [1], LoopStep.recvErr]
      = [SessionEvent.MessageReceived ProtocolMessage.Ping, SessionEvent.Disconnected]
    ∧ (fun enc : List Nat => if enc = [0] then none else some tagPING) [0] = none := by
  decide

/-- Claim C2 (amended): for every received frame whose AEAD decryption fails,
no `MessageReceived` event is delivered for that frame and the frame is
silently dropped — the loop continues unchanged (the session does not
terminate and no `DecryptFailure` error is surfaced; the failure is only
logged, `src/network/session.rs:253-255`). -/
theorem c2_decrypt_failure_drops_frame (decrypt : List Nat → Option (List Nat)) (now : Nat)
    (enc : List Nat) (rest : List LoopStep) (h : decrypt enc = none) :
    runMessageLoop decrypt now (LoopStep.recvOk enc :: rest)
      = runMessageLoop decrypt now rest := by
  simp [runMessageLoop, h]

/-- Witness for the C2 theorem at a concrete undecryptable frame. -/
theorem c2_decrypt_failure_drops_frame_witness :
    runMessageLoop (fun _ => none) 0 [LoopStep.recvOk [1]]
      = runMessageLoop (fun _ => none) 0 [] :=
  c2_decrypt_failure_drops_frame (fun _ => none) 0 [1] [] rfl

/-- Claim C3 counterexample: a handshake-failure termination path emits no
terminal event at all.  On a peer announcing version 0, the run ends with the
`UnsupportedVersion` error returned to the spawner, and the emitted event
trace contains neither `Error` nor `Disconnected` — not "exactly one". -/
theorem c3_handshake_failure_emits_no_terminal_event :
    (hostHandshake envA [NetIn.frame (to_plain_bytes (ProtocolMessage.Version 0)),
        NetIn.ioErr]).outcome = Except.error (HandshakeError.unsupportedVersion 0)
    ∧ (hostHandshake envA [NetIn.frame (to_plain_bytes (ProtocolMessage.Version 0)),
        NetIn.ioErr]).events.filter (fun e => isTerminalEvent e) = [] := by
  decide

/-- Claim C3 (amended): the message loop emits at most one terminal event,
always `Disconnected`, always last; the loop's two exit paths (receive error,
send error) emit exactly that one `Disconnected`; and handshake runs emit no
terminal event at all — a handshake failure only returns the error to the
spawner, so those termination paths produce zero terminal events rather than
exactly one. -/
theorem c3_terminal_event_discipline :
    (∀ (decrypt : List Nat → Option (List Nat)) (now : Nat) (steps : List LoopStep),
      (∀ e ∈ runMessageLoop decrypt now steps, isTerminalEvent e = false) ∨
      ∃ pre, runMessageLoop decrypt now steps = pre ++ [SessionEvent.Disconnected] ∧
        ∀ e ∈ pre, isTerminalEvent e = false)
    ∧ (∀ (decrypt : List Nat → Option (List Nat)) (now : Nat) (rest : List LoopStep),
        runMessageLoop decrypt now (LoopStep.recvErr :: rest) = [SessionEvent.Disconnected])
    ∧ (∀ (decrypt : List Nat → Option (List Nat)) (now : Nat) (m : ProtocolMessage)
        (rest : List LoopStep),
        runMessageLoop decrypt now (LoopStep.sendMsg m false :: rest)
          = [SessionEvent.Disconnected])
    ∧ (∀ (env : HostEnv) (ins : List NetIn),
        ∀ e ∈ (hostHandshake env ins).events, isTerminalEvent e = false) :=
  ⟨fun d n s => runMessageLoop_shape d n s, fun _ _ _ => rfl, fun _ _ _ _ => rfl,
    hostHandshake_no_terminal⟩

/-- Witness for the C3 theorem: the handshake component applied at a concrete
run and event. -/
theorem c3_terminal_event_discipline_witness :
    isTerminalEvent (SessionEvent.Listening 4000) = false :=
  c3_terminal_event_discipline.2.2.2 envA [] (SessionEvent.Listening 4000) (by decide)

/-- Claim C4 counterexample: a `FileMeta` whose filename contains the field
separator `|` (here `a|b`) does not round-trip — `from_plain_bytes` returns
`none` because `splitn(3, ..)` cuts the filename at the first `|` and the
remainder fails to parse as a decimal size. -/
theorem c4_filemeta_pipe_breaks_roundtrip :
    from_plain_bytes 0 (to_plain_bytes (ProtocolMessage.FileMeta
      (String.mk [Char.ofNat 97, Char.ofNat 124, Char.ofNat 98]) 5)) = none := by
  decide

/-- Claim C4 (amended): for every constructible wire message whose `FileMeta`
filename is free of the separator `|`, decoding the encoding yields an
equivalent message, ignoring only `Text.timestamp` and `FileChunk.seq`
(both normalised by `stripLocal`). -/
theorem c4_codec_roundtrip (m : ProtocolMessage) (now : Nat) (h : wireOk m) :
    Option.map stripLocal (from_plain_bytes now (to_plain_bytes m))
      = some (stripLocal m) := by
  cases m with
  | Version v =>
    rw [from_plain_version now v h]
    rfl
  | EphemeralKey k =>
    rw [from_plain_ephemeral now k]
    rfl
  | Text t ts =>
    rw [from_plain_text now t ts]
    rfl
  | FileMeta name size =>
    rw [from_plain_filemeta now name size h.1 h.2]
    rfl
  | FileChunk c s =>
    rw [show to_plain_bytes (ProtocolMessage.FileChunk c s) = tagFILECHUNK ++ c from rfl,
      from_plain_filechunk_head now c]
    rfl
  | FileEnd => rfl
  | Ping => rfl
  | TypingStart => rfl
  | TypingStop => rfl

/-- Witness for the C4 theorem at a concrete `FileMeta`. -/
theorem c4_codec_roundtrip_witness :
    Option.map stripLocal (from_plain_bytes 3 (to_plain_bytes
      (ProtocolMessage.FileMeta (String.mk [Char.ofNat 97]) 7)))
      = some (stripLocal (ProtocolMessage.FileMeta (String.mk [Char.ofNat 97]) 7)) :=
  c4_codec_roundtrip (ProtocolMessage.FileMeta (String.mk [Char.ofNat 97]) 7) 3
    ⟨by norm_num, by decide⟩

/-- Claim C5: both framing operations enforce the 8 MiB limit.  An oversized
payload makes `send_packet` fail with the invalid-input error writing nothing
to the stream, and a 4-byte header announcing a length above the limit makes
`recv_packet` fail with the invalid-data error regardless of what payload
bytes follow (it reads none of them). -/
theorem c5_frame_limits (s : WStream) (p hdr rest : List Nat)
    (h1 : MAX_PACKET_SIZE < p.length) (h2 : hdr.length = 4)
    (h3 : MAX_PACKET_SIZE < be32val hdr) :
    send_packet s p = (s, Except.error FrameErr.invalidInput)
    ∧ recv_packet (hdr ++ rest) = Except.error FrameErr.invalidData := by
  constructor
  · simp only [send_packet]
    rw [if_pos h1]
  · have hlen : ¬((hdr ++ rest).length < 4) := by
      rw [List.length_append, h2]
      omega
    have htake : (hdr ++ rest).take 4 = hdr := by
      rw [← h2, List.take_left]
    simp only [recv_packet, htake]
    rw [if_neg hlen, if_pos h3]

/-- Witness for the C5 theorem: an 8 MiB + 1 payload and an oversized header. -/
theorem c5_frame_limits_witness :
    send_packet ⟨[]⟩ (List.replicate 8388609 0) = (⟨[]⟩, Except.error FrameErr.invalidInput)
    ∧ recv_packet ([255, 255, 255, 255] ++ [1, 2, 3]) = Except.error FrameErr.invalidData :=
  c5_frame_limits ⟨[]⟩ (List.replicate 8388609 0) [255, 255, 255, 255] [1, 2, 3]
    (by simp only [List.length_replicate, MAX_PACKET_SIZE]; norm_num)
    (by decide) (by decide)

/-- Claim C6: a peer-announced version below 2 fails the handshake with the
unsupported-version error before any identity is exchanged (only the version
frame has been sent) and before any key is derived; for any announced version
at least 2 the version step succeeds and the host proceeds to send its
identity key as the second frame. -/
theorem c6_version_gate (env : HostEnv) (v : Nat) (rest : List NetIn) (hv : v < 256) :
    (v < 2 →
      hostHandshake env (NetIn.frame (to_plain_bytes (ProtocolMessage.Version v)) :: rest)
        = { events := [SessionEvent.Listening env.port, SessionEvent.Connected env.peerAddr],
            sent := [to_plain_bytes (ProtocolMessage.Version PROTOCOL_VERSION)],
            outcome := Except.error (HandshakeError.unsupportedVersion v) })
    ∧ (2 ≤ v →
        (hostHandshake env
          (NetIn.frame (to_plain_bytes (ProtocolMessage.Version v)) :: rest)).sent.take 2
          = [to_plain_bytes (ProtocolMessage.Version PROTOCOL_VERSION), env.hostPem]) := by
  have hver := from_plain_version env.now v hv
  constructor
  · intro hlt
    simp only [hostHandshake, hver]
    rw [if_pos hlt]
  · intro hge
    simp only [hostHandshake, hver]
    rw [if_neg (by omega)]
    rcases rest with _ | ⟨i1, ins1⟩
    · rfl
    cases i1 with
    | ioErr => rfl
    | frame pemB =>
      dsimp only
      cases hu : utf8Strict pemB with
      | none => rfl
      | some pemChars =>
        dsimp only
        cases hok : env.pemDecodeOk (String.mk pemChars) with
        | false => rfl
        | true =>
          rcases ins1 with _ | ⟨i2, ins2⟩
          · rfl
          cases i2 with
          | ioErr => rfl
          | frame ephB =>
            dsimp only
            cases hf : from_plain_bytes env.now ephB with
            | none => rfl
            | some m2 =>
              cases m2
              next v2 => rfl
              next pk =>
                dsimp only
                by_cases hl : pk.length ≠ 32
                · rw [if_pos hl]
                  rfl
                · rw [if_neg hl]
                  rfl
              all_goals rfl

/-- Witness for the C6 theorem: version 1 is rejected. -/
theorem c6_version_gate_witness :
    hostHandshake envA [NetIn.frame (to_plain_bytes (ProtocolMessage.Version 1))]
      = { events := [SessionEvent.Listening envA.port, SessionEvent.Connected envA.peerAddr],
          sent := [to_plain_bytes (ProtocolMessage.Version PROTOCOL_VERSION)],
          outcome := Except.error (HandshakeError.unsupportedVersion 1) } :=
  (c6_version_gate envA 1 [] (by norm_num)).1 (by norm_num)

/-- Claim C7 counterexample: `append_chunk` writes the chunk and advances
`received` before checking the bound, so after the failing append the state
has `received = 6 > expected = 5` — the invariant `received ≤ expected` does
not hold after every operation. -/
theorem c7_failed_append_exceeds_expected :
    ((append_chunk (start_meta (String.mk [Char.ofNat 97]) 5) (List.replicate 6 0)).1.expected
        < (append_chunk (start_meta (String.mk [Char.ofNat 97]) 5)
            (List.replicate 6 0)).1.received)
    ∧ (append_chunk (start_meta (String.mk [Char.ofNat 97]) 5) (List.replicate 6 0)).2
        = Except.error RecvFileErr.overrun := by
  decide

/-- Claim C7 (amended): `append_chunk` succeeds exactly when the updated count
stays within `expected` (so `received ≤ expected` holds after every
successful operation); it first writes the chunk and advances `received`, so
a failing append leaves `received` beyond `expected`; once `received` exceeds
`expected`, every further append fails; and `finalize` succeeds exactly when
`received = expected`. -/
theorem c7_receiver_size_discipline (f : IncomingFile) (chunk : List Nat) :
    ((append_chunk f chunk).2 = Except.ok () ↔ f.received + chunk.length ≤ f.expected)
    ∧ ((append_chunk f chunk).2 = Except.ok () →
        (append_chunk f chunk).1.received ≤ (append_chunk f chunk).1.expected)
    ∧ (f.expected < f.received → (append_chunk f chunk).2 = Except.error RecvFileErr.overrun)
    ∧ ((append_chunk f chunk).1.received = f.received + chunk.length)
    ∧ (finalize f = Except.ok () ↔ f.received = f.expected) := by
  refine ⟨?_, ?_, ?_, ?_, ?_⟩ <;>
    (simp only [append_chunk, finalize]
     split <;> simp_all <;> omega)

/-- Witness for the C7 theorem: a within-bounds append succeeds. -/
theorem c7_receiver_size_discipline_witness :
    (append_chunk { received := 2, expected := 5, data := [], filename := String.mk [] }
      [7, 8]).2 = Except.ok () :=
  (c7_receiver_size_discipline
    { received := 2, expected := 5, data := [], filename := String.mk [] } [7, 8]).1.mpr
    (by decide)

set_option maxRecDepth 8000 in
/-- Claim C8 counterexample: the length cap is 255 characters, not 255 bytes.
Sanitising a filename of 256 copies of U+00E9 (2 UTF-8 bytes each) keeps 255
characters, i.e. 510 bytes — above the claimed 255-byte cap. -/
theorem c8_cap_is_chars_not_bytes :
    utf8Len (sanitize_filename (String.mk (List.replicate 256 (Char.ofNat 233)))) = 510
    ∧ 255 < utf8Len (sanitize_filename (String.mk (List.replicate 256 (Char.ofNat 233)))) := by
  decide

/-- Claim C8 (amended): the sanitised filename has every occurrence of the
forbidden characters `/ \ : * ? " < > |` replaced by an underscore — so it
contains no path separator and the destination path stays inside the
destination directory — and its length is capped at 255 **characters**
(`.chars().take(255)`), not 255 bytes. -/
theorem c8_sanitize_properties (s : String) :
    (sanitize_filename s).data.length ≤ 255
    ∧ ∀ c ∈ (sanitize_filename s).data,
        c ∉ forbiddenChars ∧ (c = '_' ∨ c ∈ s.data) := by
  constructor
  · simp only [sanitize_filename, List.length_take]
    omega
  · intro c hc
    simp only [sanitize_filename] at hc
    have hc2 : c ∈ s.data.map (fun c => if c ∈ forbiddenChars then '_' else c) :=
      List.take_subset _ _ hc
    rcases List.mem_map.1 hc2 with ⟨x, hx, hmap⟩
    by_cases hxf : x ∈ forbiddenChars
    · rw [if_pos hxf] at hmap
      subst hmap
      exact ⟨by decide, Or.inl rfl⟩
    · rw [if_neg hxf] at hmap
      subst hmap
      exact ⟨hxf, Or.inr hx⟩

/-- Witness for the C8 theorem: sanitising the filename `/` produces `_`. -/
theorem c8_sanitize_properties_witness :
    Char.ofNat 95 ∉ forbiddenChars
    ∧ (Char.ofNat 95 = '_' ∨ Char.ofNat 95 ∈ (String.mk [Char.ofNat 47]).data) :=
  (c8_sanitize_properties (String.mk [Char.ofNat 47])).2 (Char.ofNat 95) (by decide)

/-- Claim C10: every byte string starting with the `FILE_CHUNK:` prefix
decodes to `Some(FileChunk)` with `seq = 0` regardless of the chunk's real
position, and the encoder drops the sender's sequence number entirely, so it
never appears on the wire. -/
theorem c10_filechunk_decodes_with_seq_zero :
    (∀ (now : Nat) (rest : List Nat),
      from_plain_bytes now (tagFILECHUNK ++ rest)
        = some (ProtocolMessage.FileChunk rest 0))
    ∧ ∀ (chunk : List Nat) (s1 s2 : Nat),
        to_plain_bytes (ProtocolMessage.FileChunk chunk s1)
          = to_plain_bytes (ProtocolMessage.FileChunk chunk s2) :=
  ⟨from_plain_filechunk_head, fun _ _ _ => rfl⟩

end P2PChat
